import Mathlib

/-!
Verification of the graph-rendering component `quartz/components/scripts/graph.inline.ts`.

The file shallowly embeds the data model and the algorithmic core of the script:
edge construction from the content index (`buildLinks`), the sentinel-based
breadth-limited neighbourhood traversal (`traverseAux` / `neighbourhoodOf`),
the rendered-link filter (`renderedLinksOf`), the node-radius computation of the
force-directed renderer (`nodeRadiusCount`), the hierarchy extraction of the
radial renderers (`radialNodes`), and the persisted visited-page store
(`getVisitedM` / `addToVisitedM`).

Page identifiers (`FullSlug` / `SimpleSlug` in the source) are strings.  The
slug normalisation function `simplifySlug` lives outside the translated file,
so every definition that uses it is parametrised over an arbitrary function
`sl : String → String`; all theorems hold for every such function.

The work-list of the traversal has TypeScript type `(SimpleSlug | "__SENTINEL")[]`;
this union type is embedded as `Option String`, with `none` playing the role of
the `"__SENTINEL"` marker.
-/

set_option autoImplicit false

namespace Quartz

/-- Metadata of one page of the content index: `title`, outgoing `links`
(already-simplified slugs, as consumed by the script) and `tags`. -/
structure ContentDetails where
  title : String
  links : List String
  tags : List String
deriving DecidableEq

/-- The content index: an association list from page key (`FullSlug`) to its
metadata, in object-key iteration order. -/
abbrev ContentIndex := List (String × ContentDetails)

/-- An edge of the link graph: `{ source, target }` of `LinkData`. -/
structure Link where
  source : String
  target : String
deriving DecidableEq

/-- The slug namespace reserved for synthetic tag nodes. -/
def tagsPref : String := "tags/"

/-- `new Set(Object.keys(data).map((slug) => simplifySlug(slug)))`:
the set (here: list) of valid link targets. -/
def validLinks (sl : String → String) (data : ContentIndex) : List String :=
  data.map (fun p => sl p.1)

/-- `details.tags.filter((tag) => !removeTags.includes(tag)).map((tag) => simplifySlug("tags/" + tag))`. -/
def localTags (sl : String → String) (removeTags : List String) (cd : ContentDetails) :
    List String :=
  (cd.tags.filter (fun t => !(removeTags.contains t))).map (fun t => sl (tagsPref ++ t))

/-- The `tags` accumulator: per page, tags not already registered are appended
(`tags.push(...localTags.filter((tag) => !tags.includes(tag)))`). -/
def buildTags (sl : String → String) (data : ContentIndex) (removeTags : List String) :
    List String :=
  data.foldl (fun acc p => acc ++ (localTags sl removeTags p.2).filter (fun t => !(acc.contains t))) []

/-- The link edges one page contributes: every outgoing link whose target is a
member of `validLinks` yields `{ source, target: dest }`. -/
def pageLinkEdges (sl : String → String) (data : ContentIndex) (p : String × ContentDetails) :
    List Link :=
  (p.2.links.filter (fun d => (validLinks sl data).contains d)).map (fun d => Link.mk (sl p.1) d)

/-- The tag edges one page contributes when tag display is enabled:
`links.push({ source, target: tag })` for each of its local tags. -/
def pageTagEdges (sl : String → String) (removeTags : List String)
    (p : String × ContentDetails) : List Link :=
  (localTags sl removeTags p.2).map (fun t => Link.mk (sl p.1) t)

/-- The full edge list produced by the construction loop over
`Object.entries(data)`: link edges, followed by tag edges when `showTags`. -/
def buildLinks (sl : String → String) (data : ContentIndex) (showTags : Bool)
    (removeTags : List String) : List Link :=
  data.flatMap (fun p =>
    pageLinkEdges sl data p ++ (if showTags then pageTagEdges sl removeTags p else []))

/-- One step of neighbour lookup: targets of outgoing edges of `cur`, then
sources of incoming edges of `cur`, in the push order of the source. -/
def neighbors (links : List Link) (cur : String) : List String :=
  ((links.filter (fun l => l.source == cur)).map (fun l => l.target)) ++
    ((links.filter (fun l => l.target == cur)).map (fun l => l.source))

/-- The sentinel work-list loop of the bounded traversal, fuel-indexed.
`none` is the `"__SENTINEL"` entry.  Each iteration re-checks the guard
`depth >= 0 && wl.length > 0`; popping the sentinel decrements `depth` and
re-enqueues the sentinel; popping an identifier adds it to the neighbourhood
and enqueues all its undirected neighbours.  `requiredFuel` below is a proven
upper bound on the number of iterations, so the fuel never runs out on the
states the script reaches. -/
def traverseAux (links : List Link) : Nat → Int → List (Option String) → Finset String → Finset String
  | 0, _, _, nb => nb
  | fuel + 1, d, wl, nb =>
    if 0 ≤ d then
      match wl with
      | [] => nb
      | none :: rest => traverseAux links fuel (d - 1) (rest ++ [none]) nb
      | some cur :: rest =>
          traverseAux links fuel d (rest ++ (neighbors links cur).map some) (insert cur nb)
    else nb

/-- Fuel that provably suffices to drain `n+1` levels of the traversal when the
pending level is `A`: each level costs its length plus one sentinel pop. -/
def requiredFuel (links : List Link) : Nat → List String → Nat
  | 0, a => a.length + 1
  | n + 1, a => a.length + 1 + requiredFuel links n (a.flatMap (neighbors links))

/-- The set of identifiers the level-synchronised traversal collects in `n+1`
levels starting from pending level `A`: `A` itself plus `n` further
neighbour-expansion rounds. -/
def ballList (links : List Link) : Nat → List String → Finset String
  | 0, a => a.toFinset
  | n + 1, a => a.toFinset ∪ ballList links n (a.flatMap (neighbors links))

/-- The neighbourhood set of a render pass: for `depth >= 0` the sentinel
work-list traversal seeded with `[slug, "__SENTINEL"]`; for negative `depth`
every simplified content-index key, plus every registered tag node when
`showTags`. -/
def neighbourhoodOf (sl : String → String) (data : ContentIndex) (showTags : Bool)
    (removeTags : List String) (slug : String) (depth : Int) : Finset String :=
  let links := buildLinks sl data showTags removeTags
  if 0 ≤ depth then
    traverseAux links (requiredFuel links depth.toNat [slug]) depth [some slug, none] ∅
  else
    (validLinks sl data).toFinset ∪
      (if showTags then (buildTags sl data removeTags).toFinset else ∅)

/-- Character-level string-prefix test (JS `url.startsWith(p)`); `String`'s own
test is not kernel-computable. -/
def listStartsWith : List Char → List Char → Bool
  | [], _ => true
  | _ :: _, [] => false
  | a :: as, b :: bs => a == b && listStartsWith as bs

/-- JS `url.startsWith(p)`. -/
def strStartsWith (s p : String) : Bool :=
  listStartsWith p.data s.data

/-- JS `url.substring(n)` (drop the first `n` characters). -/
def strDrop (s : String) (n : Nat) : String :=
  String.mk (s.data.drop n)

/-- `data[url]` : lookup of a (simplified) identifier among the raw index keys. -/
def dataLookup (data : ContentIndex) (url : String) : Option ContentDetails :=
  (data.find? (fun p => p.1 == url)).map Prod.snd

/-- Display text of a rendered node:
`url.startsWith("tags/") ? "#" + url.substring(5) : data[url]?.title ?? url`. -/
def nodeText (data : ContentIndex) (url : String) : String :=
  if strStartsWith url tagsPref then "#" ++ strDrop url 5
  else ((dataLookup data url).map ContentDetails.title).getD url

/-- A rendered node `{ id, text, tags }` of `graphData.nodes`. -/
structure NodeDatum where
  id : String
  text : String
  tags : List String
deriving DecidableEq

/-- The rendered node built for a neighbourhood member. -/
def nodeDatumOf (data : ContentIndex) (url : String) : NodeDatum :=
  ⟨url, nodeText data url, ((dataLookup data url).map ContentDetails.tags).getD []⟩

/-- `graphData.nodes`: one rendered node per neighbourhood member (as a set;
the source materialises the JS `Set` in insertion order). -/
def graphNodes (sl : String → String) (data : ContentIndex) (showTags : Bool)
    (removeTags : List String) (slug : String) (depth : Int) : Finset NodeDatum :=
  (neighbourhoodOf sl data showTags removeTags slug depth).image (nodeDatumOf data)

/-- `graphData.links`: the full edge list filtered to edges with both endpoints
in the neighbourhood set. -/
def renderedLinksOf (sl : String → String) (data : ContentIndex) (showTags : Bool)
    (removeTags : List String) (slug : String) (depth : Int) : List Link :=
  let nb := neighbourhoodOf sl data showTags removeTags slug depth
  (buildLinks sl data showTags removeTags).filter
    (fun l => decide (l.source ∈ nb) && decide (l.target ∈ nb))

/-- The bounded node/edge set `graphData` handed to the renderer. -/
def graphDataOf (sl : String → String) (data : ContentIndex) (showTags : Bool)
    (removeTags : List String) (slug : String) (depth : Int) :
    Finset NodeDatum × List Link :=
  (graphNodes sl data showTags removeTags slug depth,
    renderedLinksOf sl data showTags removeTags slug depth)

/-- The per-node incident-edge count of `nodeRadius` (the radius is
`2 + Math.sqrt` of this count).  The filter runs over the FULL edge list, but
by the time it runs, `d3.forceLink(graphData.links)` has replaced `source` and
`target` of every RENDERED link object with node-object references (whose `.id`
is the slug); the link objects that did not pass the neighbourhood filter still
hold raw strings, whose `.id` is `undefined` and never equals `d.id`.  Hence a
link contributes exactly when it is a member of the rendered list and is
incident to the node. -/
def nodeRadiusCount (allLinks rendered : List Link) (id : String) : Nat :=
  (allLinks.filter (fun l => rendered.contains l && (l.source == id || l.target == id))).length

/-- The incident-edge count the specification claims `nodeRadius` uses: every
edge of the full unfiltered list whose source or target is the node. -/
def claimedRadiusCount (allLinks : List Link) (id : String) : Nat :=
  (allLinks.filter (fun l => l.source == id || l.target == id)).length

/-- The three fill colours of the force-directed renderer. -/
inductive NodeColor
  | current
  | visitedOrTag
  | neutral
deriving DecidableEq

/-- Colour policy: the focus node, then visited-or-tag nodes, then neutral. -/
def colorOf (slug : String) (visited : List String) (id : String) : NodeColor :=
  if id == slug then NodeColor.current
  else if visited.contains id || strStartsWith id tagsPref then NodeColor.visitedOrTag
  else NodeColor.neutral

/-- A node as drawn by the force-directed renderer: its datum, its radius
count, and its fill colour. -/
structure DrawnNode where
  datum : NodeDatum
  radiusCount : Nat
  color : NodeColor
deriving DecidableEq

/-- The node and link collection the force-directed renderer draws. -/
def forceDrawn (sl : String → String) (data : ContentIndex) (showTags : Bool)
    (removeTags : List String) (slug : String) (depth : Int) (visited : List String) :
    Finset DrawnNode × List Link :=
  let gd := graphDataOf sl data showTags removeTags slug depth
  let allLinks := buildLinks sl data showTags removeTags
  (gd.1.image (fun nd =>
      ⟨nd, nodeRadiusCount allLinks gd.2 nd.id, colorOf slug visited nd.id⟩),
    gd.2)

/-- The node collection the horizontal-tree renderer draws: a synthetic root
plus one `{ name, title }` child per bounded node with a truthy (non-empty)
identifier. -/
def treeDrawn (sl : String → String) (data : ContentIndex) (showTags : Bool)
    (removeTags : List String) (slug : String) (depth : Int) :
    Finset (String × String) :=
  insert (("Root" : String), ("Root" : String))
    (((graphDataOf sl data showTags removeTags slug depth).1.filter
        (fun nd => nd.id ≠ "")).image (fun nd => (nd.id, nd.text)))

/-- An entry of `dataRadial`: `(id, parentId, title)`. -/
structure RadialDatum where
  id : String
  parentId : String
  title : String
deriving DecidableEq

/-- Splitting a character list at every `'/'` (JS `key.split("/")` at the
character level; the result is never empty). -/
def splitSlashChars : List Char → List (List Char)
  | [] => [[]]
  | c :: rest =>
      match splitSlashChars rest with
      | [] => [[]]
      | x :: xs => if c = '/' then [] :: x :: xs else (c :: x) :: xs

/-- Modelled from the spec: the JS `key.split("/")` used by the radial
renderers to extract the path hierarchy. -/
def splitSlash (s : String) : List String :=
  (splitSlashChars s.data).map String.mk

/-- The hierarchy entry the radial renderers build from one raw index key.
`crumb = key.split("/")`; `parent = crumb[crumbL-2]` (undefined when the index
is negative), `name = crumb[crumbL-1]`; an `index` leaf deeper than the root is
renamed to its parent segment with `parent = crumb[crumbL-3]`; entries whose
parent segment is `"tags"` are skipped; an undefined parent becomes `""` for
the root entry named `index` and `"index"` otherwise. -/
def radialEntry (key : String) (cd : ContentDetails) : Option RadialDatum :=
  let crumb := splitSlash key
  let len := crumb.length
  let parent0 : Option String := if 2 ≤ len then crumb.get? (len - 2) else none
  let name0 : String := (crumb.get? (len - 1)).getD ""
  let name : String :=
    if name0 = "index" ∧ 1 < len then parent0.getD "" else name0
  let parent : Option String :=
    if name0 = "index" ∧ 1 < len then (if 3 ≤ len then crumb.get? (len - 3) else none)
    else parent0
  if parent = some "tags" then none
  else some ⟨name,
    (match parent with
      | none => if name = "index" then "" else "index"
      | some p => p),
    cd.title⟩

/-- The node collection the radial renderers draw (the `dataRadial` entries;
when the stratified hierarchy is valid these are exactly the descendants the
layout places).  Note: the whole raw index is consumed; the bounded
neighbourhood set is never computed by these renderers. -/
def radialNodes (data : ContentIndex) : List RadialDatum :=
  data.filterMap (fun p => radialEntry p.1 p.2)

/-! ### The persisted visited-page store

`localStorage` content is modelled as `Option String` (`none` = key absent).
`JSON.parse` / `JSON.stringify` are platform builtins, not part of the
translated file; `stringifyVisited` / `parseVisited` below are modelled from
the spec (a JSON array of identifier strings, parse failure = thrown
`SyntaxError` = `none`), restricted to identifiers that do not contain the
quote character.  The main theorems are additionally parametrised over an
arbitrary parse function so that they do not depend on this concrete model. -/

/-- The JSON quote character. -/
def qc : Char := Char.ofNat 34

/-- Modelled from the spec: `JSON.stringify` of an array of strings, at the
character level: `["a","b"]`. -/
def encChars : List (List Char) → List Char
  | [] => ['[', ']']
  | x :: xs =>
      '[' :: qc :: ((x ++ xs.flatMap (fun y => qc :: ',' :: qc :: y)) ++ [qc, ']'])

/-- Modelled from the spec: `JSON.stringify([...visited])`. -/
def stringifyVisited (l : List String) : String :=
  String.mk (encChars (l.map String.data))

/-- Reads one quoted token: the characters up to the next quote. -/
def decTok : List Char → Option (List Char × List Char)
  | [] => none
  | c :: rest =>
      if c = qc then some ([], rest)
      else (decTok rest).map (fun pr => (c :: pr.1, pr.2))

/-- Reads a non-empty comma-separated sequence of quoted tokens terminated by
`]` at end of input. -/
def decItems : Nat → List Char → Option (List (List Char))
  | 0, _ => none
  | fuel + 1, s =>
      match s with
      | [] => none
      | c :: rest =>
          if c = qc then
            match decTok rest with
            | none => none
            | some (x, rest2) =>
                match rest2 with
                | [']'] => some [x]
                | ',' :: rest3 => (decItems fuel rest3).map (fun l => x :: l)
                | _ => none
          else none

/-- Modelled from the spec: `JSON.parse`, restricted to the array-of-strings
shape the visited store uses; `none` where `JSON.parse` would throw. -/
def parseVisited (s : String) : Option (List String) :=
  match s.data with
  | ['[', ']'] => some []
  | '[' :: rest => (decItems rest.length rest).map (fun l => l.map String.mk)
  | _ => none

/-- `new Set(list)`: deduplication keeping the first occurrence, in insertion
order. -/
def setFromList (l : List String) : List String :=
  l.foldl (fun acc x => if acc.contains x then acc else acc ++ [x]) []

/-- `set.add(x)`: appended iff not already present. -/
def setAdd (v : List String) (x : String) : List String :=
  if v.contains x then v else v ++ [x]

/-- The default string fed to `JSON.parse` when the key is absent. -/
def emptyArr : String := "[]"

/-- `getVisited()`: `new Set(JSON.parse(localStorage.getItem(key) ?? "[]"))`.
A `none` result models the uncaught exception of a failed parse. -/
def getVisitedM (parse : String → Option (List String)) (store : Option String) :
    Option (List String) :=
  (parse (store.getD emptyArr)).map setFromList

/-- `addToVisited(slug)`: read the store, add the slug, write back the
serialised spread of the set.  Returns the new stored string, or `none` when
`getVisited` threw. -/
def addToVisitedM (parse : String → Option (List String)) (store : Option String)
    (slug : String) : Option String :=
  (getVisitedM parse store).map (fun v => stringifyVisited (setAdd v slug))

/-! ### Specification-side definitions -/

/-- Reachability by at most `n` edge traversals in the undirected closure of
the edge list: the focus itself, or a first undirected step followed by at most
`n-1` more. -/
def ReachLE (links : List Link) : Nat → String → String → Prop
  | 0, a, b => a = b
  | n + 1, a, b => a = b ∨ ∃ c ∈ neighbors links a, ReachLE links n c b

/-! ### Lemmas about the bounded traversal -/

theorem traverseAux_neg (links : List Link) (fuel : Nat) (d : Int)
    (wl : List (Option String)) (nb : Finset String) (hd : d < 0) :
    traverseAux links fuel d wl nb = nb := by
  cases fuel with
  | zero => rfl
  | succ f => simp [traverseAux, not_le.mpr hd]

theorem traverseAux_sent (links : List Link) (fuel : Nat) (d : Int)
    (rest : List (Option String)) (nb : Finset String) (hd : 0 ≤ d) :
    traverseAux links (fuel + 1) d (none :: rest) nb =
      traverseAux links fuel (d - 1) (rest ++ [none]) nb := by
  simp [traverseAux, hd]

theorem traverseAux_pop (links : List Link) (fuel : Nat) (d : Int) (cur : String)
    (rest : List (Option String)) (nb : Finset String) (hd : 0 ≤ d) :
    traverseAux links (fuel + 1) d (some cur :: rest) nb =
      traverseAux links fuel d (rest ++ (neighbors links cur).map some) (insert cur nb) := by
  simp [traverseAux, hd]

theorem traverseAux_level (links : List Link) (A : List String) :
    ∀ (B : List String) (nb : Finset String) (fuel : Nat) (d : Int), 0 ≤ d →
      traverseAux links (fuel + A.length) d (A.map some ++ (none :: B.map some)) nb =
        traverseAux links fuel d (none :: (B ++ A.flatMap (neighbors links)).map some)
          (nb ∪ A.toFinset) := by
  induction A with
  | nil =>
      intro B nb fuel d _
      simp
  | cons a A ih =>
      intro B nb fuel d hd
      rw [show fuel + (a :: A).length = (fuel + A.length) + 1 from by
          rw [List.length_cons]; omega]
      rw [List.map_cons, List.cons_append, traverseAux_pop links _ d a _ nb hd]
      rw [show (A.map some ++ (none :: B.map some)) ++ (neighbors links a).map some
            = A.map some ++ (none :: (B ++ neighbors links a).map some) from by
          simp [List.append_assoc]]
      rw [ih (B ++ neighbors links a) (insert a nb) fuel d hd]
      rw [show (B ++ neighbors links a) ++ A.flatMap (neighbors links)
            = B ++ (a :: A).flatMap (neighbors links) from by
          simp [List.append_assoc]]
      rw [show insert a nb ∪ A.toFinset = nb ∪ (a :: A).toFinset from by
          simp [Finset.insert_union, Finset.union_insert]]

theorem traverseAux_run (links : List Link) :
    ∀ (n : Nat) (A : List String) (nb : Finset String) (F : Nat),
      requiredFuel links n A ≤ F →
      traverseAux links F ((n : Nat) : Int) (A.map some ++ [none]) nb
        = nb ∪ ballList links n A := by
  intro n
  induction n with
  | zero =>
      intro A nb F hF
      simp only [requiredFuel] at hF
      obtain ⟨m, hm⟩ : ∃ m, F = (m + 1) + A.length := ⟨F - A.length - 1, by omega⟩
      subst hm
      rw [show (A.map some ++ [none] : List (Option String))
            = A.map some ++ (none :: (([] : List String)).map some) from by simp]
      rw [traverseAux_level links A [] nb (m + 1) _ (by omega)]
      rw [traverseAux_sent links m _ _ _ (by omega)]
      rw [traverseAux_neg links m _ _ _ (by omega)]
      simp [ballList]
  | succ k ih =>
      intro A nb F hF
      simp only [requiredFuel] at hF
      obtain ⟨m, hm⟩ : ∃ m, F = (m + 1) + A.length := ⟨F - A.length - 1, by omega⟩
      subst hm
      rw [show (A.map some ++ [none] : List (Option String))
            = A.map some ++ (none :: (([] : List String)).map some) from by simp]
      rw [traverseAux_level links A [] nb (m + 1) _ (by omega)]
      rw [traverseAux_sent links m _ _ _ (by omega)]
      rw [show ((k + 1 : Nat) : Int) - 1 = ((k : Nat) : Int) from by push_cast; ring]
      rw [List.nil_append]
      rw [ih (A.flatMap (neighbors links)) (nb ∪ A.toFinset) m (by omega)]
      rw [show ballList links (k + 1) A
            = A.toFinset ∪ ballList links k (A.flatMap (neighbors links)) from rfl]
      rw [Finset.union_assoc]

/-- Reflexivity of bounded reachability. -/
theorem ReachLE_refl (links : List Link) : ∀ (n : Nat) (a : String), ReachLE links n a a := by
  intro n a
  cases n with
  | zero => rfl
  | succ k => exact Or.inl rfl

theorem mem_ballList (links : List Link) :
    ∀ (n : Nat) (A : List String) (x : String),
      x ∈ ballList links n A ↔ ∃ a ∈ A, ReachLE links n a x := by
  intro n
  induction n with
  | zero =>
      intro A x
      simp [ballList, ReachLE, eq_comm]
  | succ k ih =>
      intro A x
      simp only [ballList, Finset.mem_union, List.mem_toFinset, ih, List.mem_flatMap]
      constructor
      · rintro (hx | ⟨c, ⟨a, ha, hc⟩, hr⟩)
        · exact ⟨x, hx, ReachLE_refl links _ x⟩
        · exact ⟨a, ha, Or.inr ⟨c, hc, hr⟩⟩
      · rintro ⟨a, ha, (rfl | ⟨c, hc, hr⟩)⟩
        · exact Or.inl ha
        · exact Or.inr ⟨c, ⟨a, ha, hc⟩, hr⟩

/-- Membership characterisation of the bounded neighbourhood: for a
non-negative hop limit, the traversal collects exactly the identifiers
reachable from the focus within `depth` undirected edge traversals. -/
theorem mem_neighbourhoodOf (sl : String → String) (data : ContentIndex) (showTags : Bool)
    (removeTags : List String) (slug : String) (depth : Int) (hd : 0 ≤ depth) (x : String) :
    x ∈ neighbourhoodOf sl data showTags removeTags slug depth ↔
      ReachLE (buildLinks sl data showTags removeTags) depth.toNat slug x := by
  obtain ⟨n, rfl⟩ : ∃ n : Nat, depth = (n : Int) := ⟨depth.toNat, (Int.toNat_of_nonneg hd).symm⟩
  unfold neighbourhoodOf
  rw [if_pos hd]
  simp only [Int.toNat_natCast]
  rw [show ([some slug, none] : List (Option String))
        = [slug].map some ++ [none] from rfl]
  rw [traverseAux_run (buildLinks sl data showTags removeTags) n [slug] ∅ _ le_rfl]
  rw [Finset.empty_union]
  rw [mem_ballList]
  simp

/-! ### Claim theorems -/

/-- C1: for every content index, focus identifier and hop limit `n ≥ 0`, the
neighbourhood set computed by the bounded traversal equals the focus plus all
identifiers reachable from it by at most `n` edge traversals in the undirected
closure of the full edge list; hop limit 0 yields exactly the focus singleton,
and hop limit 1 yields the focus plus its direct undirected neighbours. -/
theorem claim_c1_neighbourhood (sl : String → String) (data : ContentIndex)
    (showTags : Bool) (removeTags : List String) (slug : String) (n : Nat) :
    (∀ x, x ∈ neighbourhoodOf sl data showTags removeTags slug (n : Int) ↔
        ReachLE (buildLinks sl data showTags removeTags) n slug x) ∧
    neighbourhoodOf sl data showTags removeTags slug (0 : Int) = {slug} ∧
    (∀ x, x ∈ neighbourhoodOf sl data showTags removeTags slug (1 : Int) ↔
        x = slug ∨ x ∈ neighbors (buildLinks sl data showTags removeTags) slug) := by
  refine ⟨fun x => ?_, ?_, fun x => ?_⟩
  · rw [mem_neighbourhoodOf sl data showTags removeTags slug (n : Int) (by omega) x]
    simp
  · ext x
    rw [mem_neighbourhoodOf sl data showTags removeTags slug (0 : Int) (by omega) x]
    simp only [Int.toNat_zero, Finset.mem_singleton]
    simp [ReachLE, eq_comm]
  · rw [mem_neighbourhoodOf sl data showTags removeTags slug (1 : Int) (by omega) x]
    simp only [Int.toNat_one]
    simp [ReachLE, eq_comm]

/-- C2: for every content index, focus and configuration, a non-negative hop
limit always yields a neighbourhood containing the focus, and a negative hop
limit yields, regardless of focus, the full simplified key set of the content
index plus (when tag display is on) every registered tag node. -/
theorem claim_c2_focus_and_unbounded (sl : String → String) (data : ContentIndex)
    (showTags : Bool) (removeTags : List String) (slug : String) (depth : Int) :
    (0 ≤ depth → slug ∈ neighbourhoodOf sl data showTags removeTags slug depth) ∧
    (depth < 0 → ∀ (slug' x : String),
        x ∈ neighbourhoodOf sl data showTags removeTags slug' depth ↔
          (x ∈ validLinks sl data ∨
            (showTags = true ∧ x ∈ buildTags sl data removeTags))) := by
  constructor
  · intro hd
    rw [mem_neighbourhoodOf sl data showTags removeTags slug depth hd slug]
    exact ReachLE_refl _ _ _
  · intro hd slug' x
    unfold neighbourhoodOf
    rw [if_neg (not_le.mpr hd)]
    cases showTags <;> simp

/-- C3: an edge of the full edge list is rendered if and only if both its
endpoints are members of the neighbourhood set. -/
theorem claim_c3_rendered_links (sl : String → String) (data : ContentIndex)
    (showTags : Bool) (removeTags : List String) (slug : String) (depth : Int) (l : Link) :
    l ∈ renderedLinksOf sl data showTags removeTags slug depth ↔
      (l ∈ buildLinks sl data showTags removeTags ∧
        l.source ∈ neighbourhoodOf sl data showTags removeTags slug depth ∧
        l.target ∈ neighbourhoodOf sl data showTags removeTags slug depth) := by
  simp [renderedLinksOf, List.mem_filter, and_assoc]

/-- C9: for every content index, focus identifier and integer hop limit, the
sentinel work-list traversal terminates: there is a fuel bound past which the
computed neighbourhood no longer changes. -/
theorem claim_c9_termination (sl : String → String) (data : ContentIndex)
    (showTags : Bool) (removeTags : List String) (slug : String) (depth : Int) :
    ∃ (F : Nat) (r : Finset String), ∀ k : Nat,
      traverseAux (buildLinks sl data showTags removeTags) (F + k) depth
        [some slug, none] ∅ = r := by
  set links := buildLinks sl data showTags removeTags with hl
  by_cases hd : 0 ≤ depth
  · obtain ⟨n, rfl⟩ : ∃ n : Nat, depth = (n : Int) :=
      ⟨depth.toNat, (Int.toNat_of_nonneg hd).symm⟩
    refine ⟨requiredFuel links n [slug], ballList links n [slug], fun k => ?_⟩
    have h := traverseAux_run links n [slug] ∅ (requiredFuel links n [slug] + k)
      (Nat.le_add_right _ _)
    rw [show ([slug].map some ++ [none] : List (Option String)) = [some slug, none] from rfl]
      at h
    rw [Finset.empty_union] at h
    exact h
  · exact ⟨0, ∅, fun k => traverseAux_neg _ _ _ _ _ (by omega)⟩

/-- A three-page chain with one shared tag, used by concrete witnesses. -/
def dataChain : ContentIndex :=
  [("a", ⟨"A", ["b"], ["x"]⟩), ("b", ⟨"B", ["c"], []⟩), ("c", ⟨"C", [], []⟩)]

/-- Witness for C2 at concrete inputs: the focus is in its own bounded
neighbourhood, and with a negative hop limit the tag node is in the
neighbourhood regardless of focus. -/
theorem claim_c2_witness :
    (("a" : String) ∈ neighbourhoodOf (fun s => s) dataChain true [] "a" 2) ∧
    (("tags/x" : String) ∈ neighbourhoodOf (fun s => s) dataChain true [] "c" (-1)) :=
  ⟨(claim_c2_focus_and_unbounded (fun s => s) dataChain true [] "a" 2).1 (by omega),
    ((claim_c2_focus_and_unbounded (fun s => s) dataChain true [] "c" (-1)).2 (by omega)
        "c" "tags/x").mpr (Or.inr ⟨rfl, by decide⟩)⟩

/-! ### C4: dangling outgoing links -/

/-- The content index with every dangling outgoing link (target not a
simplified index key) removed from every page. -/
def dropDangling (sl : String → String) (data : ContentIndex) : ContentIndex :=
  data.map (fun p =>
    (p.1, ContentDetails.mk p.2.title
      (p.2.links.filter (fun d => (validLinks sl data).contains d)) p.2.tags))

theorem flatMap_map_helper {α β γ : Type} (f : α → β) (g : β → List γ) (l : List α) :
    (l.map f).flatMap g = l.flatMap (fun a => g (f a)) := by
  induction l with
  | nil => rfl
  | cons a t ih => simp [ih]

theorem flatMap_congr_helper {α β : Type} (l : List α) (f g : α → List β)
    (h : ∀ a ∈ l, f a = g a) : l.flatMap f = l.flatMap g := by
  induction l with
  | nil => rfl
  | cons a t ih =>
      simp only [List.flatMap_cons]
      rw [h a (List.mem_cons_self a t), ih (fun b hb => h b (List.mem_cons_of_mem a hb))]

theorem validLinks_dropDangling (sl : String → String) (data : ContentIndex) :
    validLinks sl (dropDangling sl data) = validLinks sl data := by
  simp [validLinks, dropDangling, List.map_map, Function.comp]

/-- C4: dangling outgoing links are silently dropped: removing them from every
page leaves the full edge list unchanged for every configuration; moreover,
with tag display off, every edge of the full edge list targets a key of the
content index. -/
theorem claim_c4_dangling (sl : String → String) (data : ContentIndex) (showTags : Bool)
    (removeTags : List String) :
    buildLinks sl (dropDangling sl data) showTags removeTags
        = buildLinks sl data showTags removeTags ∧
    ∀ l ∈ buildLinks sl data false removeTags, l.target ∈ validLinks sl data := by
  constructor
  · unfold buildLinks
    unfold dropDangling
    rw [flatMap_map_helper]
    apply flatMap_congr_helper
    intro p _
    congr 1
    · unfold pageLinkEdges
      rw [show validLinks sl (List.map (fun p =>
            (p.1, ContentDetails.mk p.2.title
              (p.2.links.filter (fun d => (validLinks sl data).contains d)) p.2.tags)) data)
          = validLinks sl data from validLinks_dropDangling sl data]
      simp [List.filter_filter]
  · intro l hl
    simp only [buildLinks, if_neg, List.mem_flatMap, Bool.false_eq_true, if_false,
      List.append_nil] at hl
    obtain ⟨p, _, hp⟩ := hl
    simp only [pageLinkEdges, List.mem_map, List.mem_filter] at hp
    obtain ⟨d, ⟨_, hd⟩, rfl⟩ := hp
    simpa using hd

/-! ### C7: the node radius of the force-directed renderer -/

theorem renderedLinksOf_eq (sl : String → String) (data : ContentIndex) (showTags : Bool)
    (removeTags : List String) (slug : String) (depth : Int) :
    renderedLinksOf sl data showTags removeTags slug depth
      = (buildLinks sl data showTags removeTags).filter
          (fun l => decide (l.source ∈ neighbourhoodOf sl data showTags removeTags slug depth)
            && decide (l.target ∈ neighbourhoodOf sl data showTags removeTags slug depth)) := rfl

theorem nodeRadiusCount_filter (L : List Link) (p : Link → Bool) (id : String) :
    nodeRadiusCount L (L.filter p) id
      = ((L.filter p).filter (fun l => l.source == id || l.target == id)).length := by
  unfold nodeRadiusCount
  rw [List.filter_filter]
  congr 1
  apply List.filter_congr
  intro l hl
  have hc : (L.filter p).contains l = p l := by
    by_cases hp : p l = true
    · have hm : l ∈ L.filter p := List.mem_filter.mpr ⟨hl, hp⟩
      simp [hm, hp]
    · have hm : l ∉ L.filter p := fun hmem => hp (List.mem_filter.mp hmem).2
      simp [hm, Bool.eq_false_iff.mpr hp]
  rw [hc, Bool.and_comm]

/-- C7 counterexample: in the chain `a → b → c` with focus `a` and hop limit 1,
the rendered subgraph keeps only the edge `a → b`; the radius count of `b` is
its rendered degree 1, not its full-edge-list degree 2 as the claim states. -/
theorem claim_c7_counterexample :
    nodeRadiusCount (buildLinks (fun s => s) dataChain false [])
        (renderedLinksOf (fun s => s) dataChain false [] "a" 1) "b"
      ≠ claimedRadiusCount (buildLinks (fun s => s) dataChain false []) "b" := by
  decide

/-- C7 amended: because `d3.forceLink` replaces the endpoints of exactly the
rendered link objects with node objects, the radius count of every node equals
its incident-edge count in the FILTERED rendered-link list (not in the full
edge list). -/
theorem claim_c7_amended (sl : String → String) (data : ContentIndex) (showTags : Bool)
    (removeTags : List String) (slug : String) (depth : Int) (id : String) :
    nodeRadiusCount (buildLinks sl data showTags removeTags)
        (renderedLinksOf sl data showTags removeTags slug depth) id
      = ((renderedLinksOf sl data showTags removeTags slug depth).filter
          (fun l => l.source == id || l.target == id)).length := by
  rw [renderedLinksOf_eq]
  exact nodeRadiusCount_filter _ _ _

/-! ### C8: reading the persisted visited store -/

/-- A stored string on which `JSON.parse` throws. -/
def garbled : String := "oops"

/-- C8 counterexample: a garbled stored value does not yield the empty set; the
parse failure propagates (modelled as `none`). -/
theorem claim_c8_counterexample :
    getVisitedM parseVisited (some garbled) = none ∧
      getVisitedM parseVisited (some garbled) ≠ some [] := by
  decide

/-- C8 amended: a missing stored value yields the empty set, but a stored
value that fails to parse makes `getVisited` propagate the parse error (there
is no catch around `JSON.parse`). -/
theorem claim_c8_amended (parse : String → Option (List String)) :
    (parse emptyArr = some [] → getVisitedM parse none = some []) ∧
    (∀ s, parse s = none → getVisitedM parse (some s) = none) := by
  constructor
  · intro h
    simp [getVisitedM, h, setFromList]
  · intro s h
    simp [getVisitedM, h]

/-- Witness for C8 amended: with the concrete JSON model, a missing store reads
as the empty set and the garbled store propagates the failure. -/
theorem claim_c8_witness :
    getVisitedM parseVisited none = some [] ∧
      getVisitedM parseVisited (some garbled) = none :=
  ⟨(claim_c8_amended parseVisited).1 (by decide),
    (claim_c8_amended parseVisited).2 garbled (by decide)⟩

/-- An index with one dangling outgoing link (`"ghost"` is not a key). -/
def dataDangling : ContentIndex :=
  [("a", ⟨"A", ["b", "ghost"], []⟩), ("b", ⟨"B", [], []⟩)]

/-- Witness for C4 at a concrete index containing a dangling link. -/
theorem claim_c4_witness :
    buildLinks (fun s => s) (dropDangling (fun s => s) dataDangling) true []
        = buildLinks (fun s => s) dataDangling true [] ∧
      (Link.mk "a" "b").target ∈ validLinks (fun s => s) dataDangling :=
  ⟨(claim_c4_dangling (fun s => s) dataDangling true []).1,
    (claim_c4_dangling (fun s => s) dataDangling true []).2 (Link.mk "a" "b") (by decide)⟩

/-! ### C10: round-trip of the visited store -/

theorem decTok_append (x r : List Char) (hx : qc ∉ x) : decTok (x ++ qc :: r) = some (x, r) := by
  induction x with
  | nil => simp [decTok]
  | cons c t ih =>
      have hc : ¬ c = qc := fun h => hx (h ▸ List.mem_cons_self c t)
      have ih' := ih (fun hm => hx (List.mem_cons_of_mem c hm))
      simp only [List.cons_append, decTok, if_neg hc, List.append_eq, ih']
      rfl

theorem decItems_enc : ∀ (l : List (List Char)) (x : List Char) (fuel : Nat),
    qc ∉ x → (∀ y ∈ l, qc ∉ y) → l.length < fuel →
    decItems fuel (qc :: (x ++ (l.flatMap (fun y => qc :: ',' :: qc :: y) ++ [qc, ']'])))
      = some (x :: l) := by
  intro l
  induction l with
  | nil =>
      intro x fuel hx _ hfuel
      obtain ⟨f, rfl⟩ : ∃ f, fuel = f + 1 := ⟨fuel - 1, by omega⟩
      simp only [List.flatMap_nil, List.nil_append]
      simp [decItems, decTok_append x [']'] hx]
  | cons y ys ih =>
      intro x fuel hx hall hfuel
      obtain ⟨f, rfl⟩ : ∃ f, fuel = f + 1 := ⟨fuel - 1, by omega⟩
      rw [show (x ++ ((y :: ys).flatMap (fun z => qc :: ',' :: qc :: z) ++ [qc, ']']) : List Char)
            = x ++ qc :: (',' :: (qc :: (y ++ (ys.flatMap (fun z => qc :: ',' :: qc :: z)
              ++ [qc, ']'])))) from by simp [List.append_assoc]]
      simp only [decItems, decTok_append x _ hx]
      rw [ih y f (hall y (List.mem_cons_self y ys))
            (fun z hz => hall z (List.mem_cons_of_mem y hz)) (by simp at hfuel ⊢; omega)]
      rfl

theorem flatMapSep_length (ys : List (List Char)) :
    ys.length ≤ (ys.flatMap (fun y => qc :: ',' :: qc :: y)).length := by
  induction ys with
  | nil => simp
  | cons y t ih =>
      simp only [List.flatMap_cons, List.length_cons, List.length_append]
      omega

/-- Round-trip of the modelled store serialisation: any identifier list whose
members contain no quote character parses back from its serialisation. -/
theorem parseVisited_stringify (l : List String) (h : ∀ x ∈ l, qc ∉ x.data) :
    parseVisited (stringifyVisited l) = some l := by
  cases l with
  | nil => rfl
  | cons x xs =>
      have hred : parseVisited (stringifyVisited (x :: xs))
          = (decItems
              (qc :: ((x.data ++ (xs.map String.data).flatMap (fun y => qc :: ',' :: qc :: y))
                ++ [qc, ']'])).length
              (qc :: ((x.data ++ (xs.map String.data).flatMap (fun y => qc :: ',' :: qc :: y))
                ++ [qc, ']']))).map (fun l => l.map String.mk) := rfl
      rw [hred]
      rw [show ((x.data ++ (xs.map String.data).flatMap (fun y => qc :: ',' :: qc :: y))
            ++ [qc, ']'] : List Char)
          = x.data ++ ((xs.map String.data).flatMap (fun y => qc :: ',' :: qc :: y)
            ++ [qc, ']']) from by simp [List.append_assoc]]
      have hfuel : (xs.map String.data).length <
          (qc :: (x.data ++ ((xs.map String.data).flatMap (fun y => qc :: ',' :: qc :: y)
            ++ [qc, ']']))).length := by
        have hle := flatMapSep_length (xs.map String.data)
        simp only [List.length_cons, List.length_append, List.length_map] at hle ⊢
        omega
      rw [decItems_enc (xs.map String.data) x.data _
            (h x (List.mem_cons_self x xs))
            (fun y hy => by
              obtain ⟨s, hs, rfl⟩ := List.mem_map.mp hy
              exact h s (List.mem_cons_of_mem x hs))
            hfuel]
      show some ((x.data :: xs.map String.data).map String.mk) = some (x :: xs)
      congr 1
      have hmk : ∀ s : String, String.mk s.data = s := fun s => rfl
      show String.mk x.data :: (xs.map String.data).map String.mk = x :: xs
      rw [List.map_map, hmk x]
      congr 1
      rw [show (String.mk ∘ String.data) = fun s : String => s from funext hmk]
      exact List.map_id xs

theorem foldl_setStep_mem (l : List String) :
    ∀ (acc : List String) (x : String),
      x ∈ l.foldl (fun acc x => if acc.contains x then acc else acc ++ [x]) acc ↔
        x ∈ acc ∨ x ∈ l := by
  induction l with
  | nil =>
      intro acc x
      simp
  | cons a t ih =>
      intro acc x
      simp only [List.foldl_cons]
      by_cases h : acc.contains a
      · rw [if_pos h, ih]
        have ha : a ∈ acc := by simpa using h
        constructor
        · rintro (hx | hx)
          · exact Or.inl hx
          · exact Or.inr (List.mem_cons_of_mem _ hx)
        · rintro (hx | hx)
          · exact Or.inl hx
          · rcases List.mem_cons.mp hx with rfl | hx
            · exact Or.inl ha
            · exact Or.inr hx
      · rw [if_neg h, ih]
        simp only [List.mem_append, List.mem_singleton, List.mem_cons]
        tauto

theorem foldl_setStep_nodup (l : List String) :
    ∀ (acc : List String), acc.Nodup →
      (l.foldl (fun acc x => if acc.contains x then acc else acc ++ [x]) acc).Nodup := by
  induction l with
  | nil =>
      intro acc h
      simpa using h
  | cons a t ih =>
      intro acc h
      simp only [List.foldl_cons]
      by_cases hc : acc.contains a
      · rw [if_pos hc]
        exact ih acc h
      · rw [if_neg hc]
        refine ih _ ?_
        have ha : a ∉ acc := by simpa using hc
        simp [List.nodup_append, h, ha]

theorem setFromList_mem (l : List String) (x : String) :
    x ∈ setFromList l ↔ x ∈ l := by
  unfold setFromList
  rw [foldl_setStep_mem]
  simp

theorem setFromList_nodup (l : List String) : (setFromList l).Nodup :=
  foldl_setStep_nodup l [] List.nodup_nil

theorem setAdd_mem (v : List String) (a x : String) :
    x ∈ setAdd v a ↔ x ∈ v ∨ x = a := by
  unfold setAdd
  by_cases h : v.contains a
  · rw [if_pos h]
    have ha : a ∈ v := by simpa using h
    constructor
    · exact Or.inl
    · rintro (hx | rfl)
      · exact hx
      · exact ha
  · rw [if_neg h]
    simp

theorem setAdd_count_self (v : List String) (a : String) (hv : v.Nodup) :
    (setAdd v a).count a = 1 := by
  unfold setAdd
  by_cases h : v.contains a
  · rw [if_pos h]
    have ha : a ∈ v := by simpa using h
    have h1 : 0 < v.count a := List.count_pos_iff.mpr ha
    have h2 : v.count a ≤ 1 := List.nodup_iff_count_le_one.mp hv a
    omega
  · rw [if_neg h]
    have ha : a ∉ v := by simpa using h
    rw [List.count_append]
    rw [List.count_eq_zero_of_not_mem ha]
    simp

/-- C10: with a parseable persisted store, `addToVisited(X)` persists exactly
the previous set plus `X`: the new store serialises the JS set of the parsed
list with `X` added, it parses back, its set of identifiers is the previous
set union `{X}`, `X` occurs exactly once, every previously persisted
identifier is kept, and adding an already-present `X` leaves the persisted set
unchanged. -/
theorem claim_c10_addToVisited (store : String) (l : List String) (X : String)
    (hs : parseVisited store = some l) (hl : ∀ x ∈ l, qc ∉ x.data) (hX : qc ∉ X.data) :
    addToVisitedM parseVisited (some store) X
        = some (stringifyVisited (setAdd (setFromList l) X)) ∧
    parseVisited (stringifyVisited (setAdd (setFromList l) X))
        = some (setAdd (setFromList l) X) ∧
    (setAdd (setFromList l) X).toFinset = l.toFinset ∪ {X} ∧
    (setAdd (setFromList l) X).count X = 1 ∧
    (∀ y ∈ l, y ∈ setAdd (setFromList l) X) ∧
    (X ∈ l → (setAdd (setFromList l) X).toFinset = l.toFinset) := by
  refine ⟨?_, ?_, ?_, ?_, ?_, ?_⟩
  · simp [addToVisitedM, getVisitedM, hs]
  · refine parseVisited_stringify _ ?_
    intro x hx
    rcases (setAdd_mem _ _ _).mp hx with hx | rfl
    · exact hl x ((setFromList_mem l x).mp hx)
    · exact hX
  · ext y
    simp only [List.mem_toFinset, Finset.mem_union, Finset.mem_singleton]
    rw [setAdd_mem, setFromList_mem]
  · exact setAdd_count_self _ _ (setFromList_nodup l)
  · intro y hy
    exact (setAdd_mem _ _ _).mpr (Or.inl ((setFromList_mem l y).mpr hy))
  · intro hX'
    ext y
    simp only [List.mem_toFinset]
    rw [setAdd_mem, setFromList_mem]
    constructor
    · rintro (hy | rfl)
      · exact hy
      · exact hX'
    · exact Or.inl

/-- Witness for C10: a store holding `["a"]`, to which `"b"` is added. -/
theorem claim_c10_witness :
    addToVisitedM parseVisited (some (stringifyVisited ["a"])) "b"
        = some (stringifyVisited (setAdd (setFromList ["a"]) "b")) ∧
    parseVisited (stringifyVisited (setAdd (setFromList ["a"]) "b"))
        = some (setAdd (setFromList ["a"]) "b") ∧
    (setAdd (setFromList ["a"]) "b").toFinset = (["a"] : List String).toFinset ∪ {"b"} ∧
    (setAdd (setFromList ["a"]) "b").count "b" = 1 ∧
    (∀ y ∈ (["a"] : List String), y ∈ setAdd (setFromList ["a"]) "b") ∧
    ("b" ∈ (["a"] : List String) →
      (setAdd (setFromList ["a"]) "b").toFinset = (["a"] : List String).toFinset) :=
  claim_c10_addToVisited (stringifyVisited ["a"]) ["a"] "b" (by decide) (by decide) (by decide)

/-! ### C5: tag display on versus off -/

theorem filter_flatMap_helper {α β : Type} (xs : List α) (f : α → List β) (p : β → Bool) :
    (xs.flatMap f).filter p = xs.flatMap (fun a => (f a).filter p) := by
  induction xs <;> simp [*]

theorem foldl_tags_mem (sl : String → String) (rt : List String)
    (l : List (String × ContentDetails)) :
    ∀ (acc : List String) (x : String),
      x ∈ l.foldl (fun acc p =>
          acc ++ (localTags sl rt p.2).filter (fun t => !(acc.contains t))) acc ↔
        x ∈ acc ∨ ∃ p ∈ l, x ∈ localTags sl rt p.2 := by
  induction l with
  | nil =>
      intro acc x
      simp
  | cons a t ih =>
      intro acc x
      simp only [List.foldl_cons]
      rw [ih]
      constructor
      · rintro (hx | ⟨p, hp, hx⟩)
        · rcases List.mem_append.mp hx with hx | hx
          · exact Or.inl hx
          · exact Or.inr ⟨a, List.mem_cons_self a t, (List.mem_filter.mp hx).1⟩
        · exact Or.inr ⟨p, List.mem_cons_of_mem a hp, hx⟩
      · rintro (hx | ⟨p, hp, hx⟩)
        · exact Or.inl (List.mem_append_left _ hx)
        · rcases List.mem_cons.mp hp with rfl | hp
          · by_cases hxacc : x ∈ acc
            · exact Or.inl (List.mem_append_left _ hxacc)
            · refine Or.inl (List.mem_append_right _ (List.mem_filter.mpr ⟨hx, ?_⟩))
              simp [hxacc]
          · exact Or.inr ⟨p, hp, hx⟩

theorem mem_buildTags (sl : String → String) (data : ContentIndex) (rt : List String)
    (x : String) :
    x ∈ buildTags sl data rt ↔ ∃ p ∈ data, x ∈ localTags sl rt p.2 := by
  unfold buildTags
  rw [foldl_tags_mem]
  simp

theorem mem_buildLinks (sl : String → String) (data : ContentIndex) (st : Bool)
    (rt : List String) (l : Link) :
    l ∈ buildLinks sl data st rt ↔
      ∃ p ∈ data, l ∈ pageLinkEdges sl data p ∨ (st = true ∧ l ∈ pageTagEdges sl rt p) := by
  cases st <;> simp [buildLinks]

theorem pageLinkEdges_endpoints (sl : String → String) (data : ContentIndex)
    (p : String × ContentDetails) (l : Link) (h : l ∈ pageLinkEdges sl data p) :
    l.source = sl p.1 ∧ l.target ∈ validLinks sl data := by
  simp only [pageLinkEdges, List.mem_map, List.mem_filter] at h
  obtain ⟨d, ⟨_, hd⟩, rfl⟩ := h
  exact ⟨rfl, by simpa using hd⟩

theorem pageTagEdges_endpoints (sl : String → String) (rt : List String)
    (p : String × ContentDetails) (l : Link) (h : l ∈ pageTagEdges sl rt p) :
    l.source = sl p.1 ∧ l.target ∈ localTags sl rt p.2 := by
  simp only [pageTagEdges, List.mem_map] at h
  obtain ⟨t, ht, rfl⟩ := h
  exact ⟨rfl, ht⟩

theorem mem_validLinks_of_mem (sl : String → String) (data : ContentIndex)
    (p : String × ContentDetails) (hp : p ∈ data) : sl p.1 ∈ validLinks sl data := by
  simp only [validLinks, List.mem_map]
  exact ⟨p, hp, rfl⟩

theorem neighbors_subset (L1 L2 : List Link) (hsub : ∀ l ∈ L1, l ∈ L2) (cur x : String)
    (hx : x ∈ neighbors L1 cur) : x ∈ neighbors L2 cur := by
  simp only [neighbors, List.mem_append, List.mem_map, List.mem_filter] at hx ⊢
  rcases hx with ⟨lk, ⟨hlk, hs⟩, ht⟩ | ⟨lk, ⟨hlk, ht⟩, hs⟩
  · exact Or.inl ⟨lk, ⟨hsub lk hlk, hs⟩, ht⟩
  · exact Or.inr ⟨lk, ⟨hsub lk hlk, ht⟩, hs⟩

theorem ReachLE_mono (L1 L2 : List Link) (hsub : ∀ l ∈ L1, l ∈ L2) :
    ∀ (n : Nat) (a b : String), ReachLE L1 n a b → ReachLE L2 n a b := by
  intro n
  induction n with
  | zero =>
      intro a b h
      exact h
  | succ k ih =>
      intro a b h
      simp only [ReachLE] at h ⊢
      rcases h with rfl | ⟨c, hc, hr⟩
      · exact Or.inl rfl
      · exact Or.inr ⟨c, neighbors_subset L1 L2 hsub a c hc, ih c b hr⟩

theorem buildLinks_false_subset (sl : String → String) (data : ContentIndex)
    (rt : List String) : ∀ l ∈ buildLinks sl data false rt, l ∈ buildLinks sl data true rt := by
  intro l hl
  rw [mem_buildLinks] at hl ⊢
  obtain ⟨p, hp, h | ⟨hst, _⟩⟩ := hl
  · exact ⟨p, hp, Or.inl h⟩
  · exact absurd hst (by simp)

/-- The rendered-link membership characterisation, shared by several proofs. -/
theorem mem_renderedLinksOf (sl : String → String) (data : ContentIndex) (showTags : Bool)
    (removeTags : List String) (slug : String) (depth : Int) (l : Link) :
    l ∈ renderedLinksOf sl data showTags removeTags slug depth ↔
      (l ∈ buildLinks sl data showTags removeTags ∧
        l.source ∈ neighbourhoodOf sl data showTags removeTags slug depth ∧
        l.target ∈ neighbourhoodOf sl data showTags removeTags slug depth) := by
  simp [renderedLinksOf, List.mem_filter, and_assoc]

theorem neighbourhoodOf_tags_mono (sl : String → String) (data : ContentIndex)
    (rt : List String) (slug : String) (depth : Int) :
    neighbourhoodOf sl data false rt slug depth ⊆ neighbourhoodOf sl data true rt slug depth := by
  intro x hx
  by_cases hd : 0 ≤ depth
  · rw [mem_neighbourhoodOf sl data false rt slug depth hd x] at hx
    rw [mem_neighbourhoodOf sl data true rt slug depth hd x]
    exact ReachLE_mono _ _ (buildLinks_false_subset sl data rt) _ _ _ hx
  · unfold neighbourhoodOf at hx ⊢
    rw [if_neg hd] at hx ⊢
    simp only [Finset.mem_union, List.mem_toFinset] at hx ⊢
    rcases hx with hx | hx
    · exact Or.inl hx
    · exact absurd hx (by simp)

theorem neighbourhoodOf_unbounded (sl : String → String) (data : ContentIndex) (st : Bool)
    (rt : List String) (slug : String) (depth : Int) (hd : depth < 0) :
    neighbourhoodOf sl data st rt slug depth
      = (validLinks sl data).toFinset ∪
          (if st then (buildTags sl data rt).toFinset else ∅) := by
  unfold neighbourhoodOf
  rw [if_neg (not_le.mpr hd)]

theorem buildLinks_true_eq (sl : String → String) (data : ContentIndex) (rt : List String) :
    buildLinks sl data true rt
      = data.flatMap (fun p => pageLinkEdges sl data p ++ pageTagEdges sl rt p) := by
  simp [buildLinks]

theorem buildLinks_false_eq (sl : String → String) (data : ContentIndex) (rt : List String) :
    buildLinks sl data false rt = data.flatMap (fun p => pageLinkEdges sl data p) := by
  simp [buildLinks]

theorem renderedLinksOf_unbounded_true (sl : String → String) (data : ContentIndex)
    (rt : List String) (slug : String) (depth : Int) (hd : depth < 0) :
    renderedLinksOf sl data true rt slug depth = buildLinks sl data true rt := by
  rw [renderedLinksOf_eq]
  apply List.filter_eq_self.mpr
  intro l hl
  rw [neighbourhoodOf_unbounded sl data true rt slug depth hd]
  rw [mem_buildLinks] at hl
  obtain ⟨p, hp, hcase⟩ := hl
  rcases hcase with h | ⟨_, h⟩
  · obtain ⟨hsrc, htgt⟩ := pageLinkEdges_endpoints sl data p l h
    simp [hsrc ▸ mem_validLinks_of_mem sl data p hp, htgt]
  · obtain ⟨hsrc, htgt⟩ := pageTagEdges_endpoints sl rt p l h
    have htgtT : l.target ∈ buildTags sl data rt := (mem_buildTags sl data rt _).mpr ⟨p, hp, htgt⟩
    simp [hsrc ▸ mem_validLinks_of_mem sl data p hp, htgtT]

theorem renderedLinksOf_unbounded_false (sl : String → String) (data : ContentIndex)
    (rt : List String) (slug : String) (depth : Int) (hd : depth < 0) :
    renderedLinksOf sl data false rt slug depth = buildLinks sl data false rt := by
  rw [renderedLinksOf_eq]
  apply List.filter_eq_self.mpr
  intro l hl
  rw [neighbourhoodOf_unbounded sl data false rt slug depth hd]
  rw [mem_buildLinks] at hl
  obtain ⟨p, hp, hcase⟩ := hl
  rcases hcase with h | ⟨hst, _⟩
  · obtain ⟨hsrc, htgt⟩ := pageLinkEdges_endpoints sl data p l h
    simp [hsrc ▸ mem_validLinks_of_mem sl data p hp, htgt]
  · exact absurd hst (by simp)

theorem buildLinks_filter_nonTag (sl : String → String) (data : ContentIndex)
    (rt : List String) (hdisj : ∀ t ∈ buildTags sl data rt, t ∉ validLinks sl data) :
    (buildLinks sl data true rt).filter
        (fun l => !((buildTags sl data rt).contains l.source)
          && !((buildTags sl data rt).contains l.target))
      = buildLinks sl data false rt := by
  rw [buildLinks_true_eq, buildLinks_false_eq, filter_flatMap_helper]
  apply flatMap_congr_helper
  intro p hp
  rw [List.filter_append]
  rw [List.filter_eq_self.mpr ?h1, List.filter_eq_nil_iff.mpr ?h2, List.append_nil]
  case h1 =>
    intro l hl
    obtain ⟨hsrc, htgt⟩ := pageLinkEdges_endpoints sl data p l hl
    have hs : l.source ∉ buildTags sl data rt :=
      fun ht => hdisj _ ht (hsrc ▸ mem_validLinks_of_mem sl data p hp)
    have ht : l.target ∉ buildTags sl data rt := fun htt => hdisj _ htt htgt
    simp [hs, ht]
  case h2 =>
    intro l hl
    have htgt := (pageTagEdges_endpoints sl rt p l hl).2
    have htT : l.target ∈ buildTags sl data rt := (mem_buildTags sl data rt _).mpr ⟨p, hp, htgt⟩
    simp [htT]

/-- Two pages with a shared tag and no links: with tag display on, the tag node
joins them at undirected distance 2. -/
def dataTagPair : ContentIndex :=
  [("a", ⟨"A", [], ["x"]⟩), ("b", ⟨"B", [], ["x"]⟩)]

/-- C5 counterexample: at hop limit 2 with focus `a`, the tags-enabled
neighbourhood restricted to non-tag nodes is `{a, b}` (the tag node bridges
`a` and `b`), while the tags-disabled neighbourhood is `{a}`: disabling tag
display does NOT return the non-tag restriction of the enabled render. -/
theorem claim_c5_counterexample :
    ¬ ((neighbourhoodOf (fun s => s) dataTagPair true [] "a" 2).filter
          (fun x => x ∉ buildTags (fun s => s) dataTagPair [])
        = neighbourhoodOf (fun s => s) dataTagPair false [] "a" 2) := by
  decide

/-- C5 amended: enabling tag display only ever adds rendered nodes and links
(the tags-disabled render is a subgraph of the tags-enabled one), and in
unbounded mode (negative hop limit), provided no tag node collides with an
index key, restricting the tags-enabled render to non-tag elements gives
exactly the tags-disabled render; for bounded hop limits the restriction can
strictly exceed the disabled render because tag nodes create new undirected
paths. -/
theorem claim_c5_amended (sl : String → String) (data : ContentIndex) (rt : List String)
    (slug : String) (depth : Int) :
    (neighbourhoodOf sl data false rt slug depth
        ⊆ neighbourhoodOf sl data true rt slug depth) ∧
    (∀ l ∈ renderedLinksOf sl data false rt slug depth,
        l ∈ renderedLinksOf sl data true rt slug depth) ∧
    (depth < 0 → (∀ t ∈ buildTags sl data rt, t ∉ validLinks sl data) →
      ((neighbourhoodOf sl data true rt slug depth).filter
          (fun x => x ∉ buildTags sl data rt)
        = neighbourhoodOf sl data false rt slug depth) ∧
      ((renderedLinksOf sl data true rt slug depth).filter
          (fun l => !((buildTags sl data rt).contains l.source)
            && !((buildTags sl data rt).contains l.target))
        = renderedLinksOf sl data false rt slug depth)) := by
  refine ⟨neighbourhoodOf_tags_mono sl data rt slug depth, ?_, ?_⟩
  · intro l hl
    rw [mem_renderedLinksOf] at hl ⊢
    exact ⟨buildLinks_false_subset sl data rt l hl.1,
      neighbourhoodOf_tags_mono sl data rt slug depth hl.2.1,
      neighbourhoodOf_tags_mono sl data rt slug depth hl.2.2⟩
  · intro hd hdisj
    constructor
    · rw [neighbourhoodOf_unbounded sl data true rt slug depth hd,
        neighbourhoodOf_unbounded sl data false rt slug depth hd]
      ext x
      simp only [Finset.mem_filter, Finset.mem_union, List.mem_toFinset,
        Bool.false_eq_true, if_true, if_false, Finset.not_mem_empty, or_false]
      constructor
      · rintro ⟨hx | hx, hnot⟩
        · exact hx
        · exact absurd hx hnot
      · intro hx
        exact ⟨Or.inl hx, fun ht => hdisj x ht hx⟩
    · rw [renderedLinksOf_unbounded_true sl data rt slug depth hd,
        renderedLinksOf_unbounded_false sl data rt slug depth hd,
        buildLinks_filter_nonTag sl data rt hdisj]

/-- Witness for C5 amended: bounded monotonicity at hop limit 2 and the
unbounded non-tag restriction identity at hop limit `-1` on the shared-tag
index. -/
theorem claim_c5_witness :
    ((neighbourhoodOf (fun s => s) dataTagPair false [] "a" 2)
        ⊆ neighbourhoodOf (fun s => s) dataTagPair true [] "a" 2) ∧
    ((neighbourhoodOf (fun s => s) dataTagPair true [] "a" (-1)).filter
        (fun x => x ∉ buildTags (fun s => s) dataTagPair [])
      = neighbourhoodOf (fun s => s) dataTagPair false [] "a" (-1)) :=
  ⟨(claim_c5_amended (fun s => s) dataTagPair [] "a" 2).1,
    ((claim_c5_amended (fun s => s) dataTagPair [] "a" (-1)).2.2 (by omega) (by decide)).1⟩

/-! ### C6: what the renderers depend on -/

theorem nodeRadiusCount_rendered (sl : String → String) (data : ContentIndex) (st : Bool)
    (rt : List String) (slug : String) (depth : Int) (id : String) :
    nodeRadiusCount (buildLinks sl data st rt) (renderedLinksOf sl data st rt slug depth) id
      = ((renderedLinksOf sl data st rt slug depth).filter
          (fun l => l.source == id || l.target == id)).length := by
  rw [renderedLinksOf_eq]
  exact nodeRadiusCount_filter _ _ _

theorem forceDrawn_eq_of_graphData (sl : String → String) (data : ContentIndex) (st : Bool)
    (rt : List String) (slug : String) (depth : Int) (visited : List String) :
    forceDrawn sl data st rt slug depth visited
      = ((graphDataOf sl data st rt slug depth).1.image (fun nd =>
          ⟨nd, ((graphDataOf sl data st rt slug depth).2.filter
              (fun l => l.source == nd.id || l.target == nd.id)).length,
            colorOf slug visited nd.id⟩),
        (graphDataOf sl data st rt slug depth).2) := by
  simp only [forceDrawn]
  congr 1
  apply Finset.image_congr
  intro nd _
  exact congrArg (fun c => DrawnNode.mk nd c (colorOf slug visited nd.id))
    (nodeRadiusCount_rendered sl data st rt slug depth nd.id)

/-- C6 counterexample: two content indexes that induce the same bounded
node/edge set (focus `index`, hop limit 0, no tags) but different radial-layout
node collections: the radial renderers read the whole raw index and ignore the
bounded set, so they are not functions of it. -/
theorem claim_c6_counterexample :
    graphDataOf (fun s => s) [("index", ⟨"Home", [], []⟩)] false [] "index" 0
        = graphDataOf (fun s => s) [("index", ⟨"Home", [], []⟩), ("b", ⟨"B", [], []⟩)]
            false [] "index" 0 ∧
      radialNodes [("index", ⟨"Home", [], []⟩)]
        ≠ radialNodes [("index", ⟨"Home", [], []⟩), ("b", ⟨"B", [], []⟩)] := by
  constructor
  · decide
  · decide

/-- C6 amended: the force-directed and horizontal-tree renderers draw node and
link collections that are pure functions of the bounded node/edge set, the
focus, and the visited set: any two index/configuration pairs inducing the same
bounded set yield identical drawn collections.  The radial renderers are not
such functions (see the counterexample): they consume the whole raw index. -/
theorem claim_c6_amended (sl1 : String → String) (data1 : ContentIndex) (st1 : Bool)
    (rt1 : List String) (depth1 : Int) (sl2 : String → String) (data2 : ContentIndex)
    (st2 : Bool) (rt2 : List String) (depth2 : Int) (slug : String) (visited : List String)
    (hgd : graphDataOf sl1 data1 st1 rt1 slug depth1
      = graphDataOf sl2 data2 st2 rt2 slug depth2) :
    forceDrawn sl1 data1 st1 rt1 slug depth1 visited
        = forceDrawn sl2 data2 st2 rt2 slug depth2 visited ∧
    treeDrawn sl1 data1 st1 rt1 slug depth1 = treeDrawn sl2 data2 st2 rt2 slug depth2 := by
  constructor
  · rw [forceDrawn_eq_of_graphData, forceDrawn_eq_of_graphData, hgd]
  · unfold treeDrawn
    unfold graphDataOf
    unfold graphDataOf at hgd
    rw [show graphNodes sl1 data1 st1 rt1 slug depth1
          = graphNodes sl2 data2 st2 rt2 slug depth2 from congrArg Prod.fst hgd]

/-- Witness for C6 amended, applying it to the counterexample's index pair:
equal bounded sets give equal force-directed and horizontal-tree drawn
collections even though the underlying indexes differ. -/
theorem claim_c6_witness :
    forceDrawn (fun s => s) [("index", ⟨"Home", [], []⟩)] false [] "index" 0 []
        = forceDrawn (fun s => s) [("index", ⟨"Home", [], []⟩), ("b", ⟨"B", [], []⟩)]
            false [] "index" 0 [] ∧
    treeDrawn (fun s => s) [("index", ⟨"Home", [], []⟩)] false [] "index" 0
        = treeDrawn (fun s => s) [("index", ⟨"Home", [], []⟩), ("b", ⟨"B", [], []⟩)]
            false [] "index" 0 :=
  claim_c6_amended (fun s => s) [("index", ⟨"Home", [], []⟩)] false [] 0
    (fun s => s) [("index", ⟨"Home", [], []⟩), ("b", ⟨"B", [], []⟩)] false [] 0
    "index" [] (by decide)

end Quartz
